import Mathlib

set_option maxRecDepth 8000

/- Shallow embedding of the rust-atomizer repository, covering the call-graph
builder and atom exporter of `src/scip_to_call_graph_json_final.rs` and the
span resolver of `src/verus_parser.rs`.  Rust `HashMap`s are modelled as
association lists where a freshly inserted binding shadows older ones,
`HashSet`s as lists used only through membership, and Rust strings as Lean
strings (with explicit UTF-8 byte counting where the code measures bytes).
Panics are modelled by `Option`: `none` is a panic. -/

namespace Atomizer

/-! ### Generic helpers -/

/-- First-match lookup in an association list.  Together with cons-insertion
this models a Rust `HashMap`: the most recent insertion shadows older ones. -/
def alookup {α : Type} : List (String × α) → String → Option α
  | [], _ => none
  | (k, v) :: rest, s => if k = s then some v else alookup rest s

theorem foldlPreserve {α β : Type} {P : α → Prop} (f : α → β → α) :
    ∀ (l : List β) (a : α), P a → (∀ b x, x ∈ l → P b → P (f b x)) → P (l.foldl f a) := by
  intro l
  induction l with
  | nil => intro a ha _; exact ha
  | cons x xs ih =>
      intro a ha hstep
      exact ih (f a x) (hstep a x (List.mem_cons_self x xs) ha)
        (fun b y hy hb => hstep b y (List.mem_cons_of_mem _ hy) hb)

theorem findCongr {α : Type} (p q : α → Bool) :
    ∀ l : List α, (∀ a ∈ l, p a = q a) → l.find? p = l.find? q := by
  intro l
  induction l with
  | nil => intro _; rfl
  | cons x xs ih =>
      intro h
      have hx := h x (List.mem_cons_self x xs)
      cases hq : q x with
      | true =>
          rw [List.find?_cons_of_pos _ (by rw [hx, hq]), List.find?_cons_of_pos _ hq]
      | false =>
          rw [List.find?_cons_of_neg _ (by rw [hx, hq]; simp), List.find?_cons_of_neg _ (by rw [hq]; simp)]
          exact ih (fun a ha => h a (List.mem_cons_of_mem _ ha))

/-! ### Span resolver (`src/verus_parser.rs`)

`FunctionSpan` mirrors the struct of the same name; `find_best_match` is a
direct translation of the function at `verus_parser.rs:162-207`, with each
of its `for` loops rendered as a first-match recursion and the final
`min_by_key` fallback as a fold that keeps the earlier element on ties,
exactly as Rust's `min_by_key` does. -/

structure FunctionSpan where
  name : String
  start_line : Nat
  end_line : Nat
deriving DecidableEq

/-- Absolute line distance, written the way the code computes `diff`. -/
def ldist (a b : Nat) : Nat := if a > b then a - b else b - a

/-- The `matching` vector: spans whose name equals the requested name. -/
def filterName : List FunctionSpan → String → List FunctionSpan
  | [], _ => []
  | s :: rest, n => if s.name = n then s :: filterName rest n else filterName rest n

/-- First span whose start line equals the requested line (first loop). -/
def findExact : List FunctionSpan → Nat → Option FunctionSpan
  | [], _ => none
  | s :: rest, a => if s.start_line = a then some s else findExact rest a

/-- First span within the 15-line tolerance window (second loop). -/
def findTol : List FunctionSpan → Nat → Option FunctionSpan
  | [], _ => none
  | s :: rest, a => if ldist s.start_line a ≤ 15 then some s else findTol rest a

/-- The `min_by_key` fallback: first span of minimal absolute distance. -/
def minByDist (l : List FunctionSpan) (a : Nat) : Option FunctionSpan :=
  match l with
  | [] => none
  | s :: rest =>
      some (rest.foldl (fun best x =>
        if ldist x.start_line a < ldist best.start_line a then x else best) s)

/-- Translation of `find_best_match` (`verus_parser.rs:162-207`). -/
def find_best_match (spans : List FunctionSpan) (name : String) (approx_line : Nat) :
    Option FunctionSpan :=
  let matching := filterName spans name
  if matching.length = 0 then none
  else if matching.length = 1 then matching.head?
  else
    match findExact matching approx_line with
    | some s => some s
    | none =>
      match findTol matching approx_line with
      | some s => some s
      | none => minByDist matching approx_line

/-- The resolver as the (amended) specification describes it: exact name
match; a unique candidate is returned unconditionally; otherwise prefer an
exact start-line match, else the first candidate in span-list order within
the 15-line tolerance window, else the first candidate of minimum absolute
line distance. -/
def find_best_match_described (spans : List FunctionSpan) (name : String) (approx_line : Nat) :
    Option FunctionSpan :=
  let m := spans.filter (fun s => decide (s.name = name))
  match m with
  | [] => none
  | [s] => some s
  | _ :: _ :: _ =>
    match m.find? (fun s => decide (s.start_line = approx_line)) with
    | some s => some s
    | none =>
      match m.find? (fun s => decide (ldist s.start_line approx_line ≤ 15)) with
      | some s => some s
      | none =>
          m.find? (fun s =>
            decide (∀ t ∈ m, ldist s.start_line approx_line ≤ ldist t.start_line approx_line))

theorem filterName_eq (n : String) :
    ∀ l : List FunctionSpan, filterName l n = l.filter (fun s => decide (s.name = n)) := by
  intro l
  induction l with
  | nil => rfl
  | cons s rest ih =>
      by_cases h : s.name = n
      · rw [filterName, if_pos h, List.filter_cons_of_pos (by simpa using h), ih]
      · rw [filterName, if_neg h, List.filter_cons_of_neg (by simpa using h), ih]

theorem findExact_eq (a : Nat) :
    ∀ l : List FunctionSpan, findExact l a = l.find? (fun s => decide (s.start_line = a)) := by
  intro l
  induction l with
  | nil => rfl
  | cons s rest ih =>
      by_cases h : s.start_line = a
      · rw [findExact, if_pos h, List.find?_cons_of_pos _ (by simpa using h)]
      · rw [findExact, if_neg h, List.find?_cons_of_neg _ (by simpa using h), ih]

theorem findTol_eq (a : Nat) :
    ∀ l : List FunctionSpan, findTol l a = l.find? (fun s => decide (ldist s.start_line a ≤ 15)) := by
  intro l
  induction l with
  | nil => rfl
  | cons s rest ih =>
      by_cases h : ldist s.start_line a ≤ 15
      · rw [findTol, if_pos h, List.find?_cons_of_pos _ (by simpa using h)]
      · rw [findTol, if_neg h, List.find?_cons_of_neg _ (by simpa using h), ih]

theorem foldlMinFirst (a : Nat) :
    ∀ (l : List FunctionSpan) (b : FunctionSpan),
      (b :: l).find? (fun s => decide (∀ t ∈ b :: l, ldist s.start_line a ≤ ldist t.start_line a)) =
        some (l.foldl (fun best x =>
          if ldist x.start_line a < ldist best.start_line a then x else best) b) := by
  intro l
  induction l with
  | nil =>
      intro b
      rw [List.find?_cons_of_pos _ (by simp)]
      rfl
  | cons x xs ih =>
      intro b
      by_cases hx : ldist x.start_line a < ldist b.start_line a
      · have hb : ¬ (∀ t ∈ b :: x :: xs, ldist b.start_line a ≤ ldist t.start_line a) := by
          intro h
          exact absurd (h x (by simp)) (by omega)
        rw [List.find?_cons_of_neg _ (by simpa using hb)]
        have hcongr : ∀ s ∈ x :: xs,
            (fun s => decide (∀ t ∈ b :: x :: xs, ldist s.start_line a ≤ ldist t.start_line a)) s =
            (fun s => decide (∀ t ∈ x :: xs, ldist s.start_line a ≤ ldist t.start_line a)) s := by
          intro s _
          simp only [decide_eq_decide]
          constructor
          · intro h t ht
            exact h t (List.mem_cons_of_mem _ ht)
          · intro h t ht
            rcases List.mem_cons.mp ht with rfl | ht'
            · have := h x (by simp)
              omega
            · exact h t ht'
        rw [findCongr _ _ _ hcongr, ih x]
        simp only [List.foldl_cons, if_pos hx]
      · have hble : ldist b.start_line a ≤ ldist x.start_line a := by omega
        by_cases hb : ∀ t ∈ b :: xs, ldist b.start_line a ≤ ldist t.start_line a
        · have hbL : ∀ t ∈ b :: x :: xs, ldist b.start_line a ≤ ldist t.start_line a := by
            intro t ht
            rcases List.mem_cons.mp ht with rfl | ht'
            · exact hb t (by simp)
            · rcases List.mem_cons.mp ht' with rfl | ht''
              · exact hble
              · exact hb t (List.mem_cons_of_mem _ ht'')
          rw [List.find?_cons_of_pos _ (by simpa using hbL)]
          have := ih b
          rw [List.find?_cons_of_pos _ (by simpa using hb)] at this
          rw [List.foldl_cons, if_neg hx]
          exact this
        · push_neg at hb
          obtain ⟨t0, ht0, ht0lt⟩ := hb
          have hbF : ¬ (∀ t ∈ b :: x :: xs, ldist b.start_line a ≤ ldist t.start_line a) := by
            intro h
            rcases List.mem_cons.mp ht0 with rfl | ht0'
            · omega
            · exact absurd (h t0 (List.mem_cons_of_mem _ (List.mem_cons_of_mem _ ht0'))) (by omega)
          have hxF : ¬ (∀ t ∈ b :: x :: xs, ldist x.start_line a ≤ ldist t.start_line a) := by
            intro h
            rcases List.mem_cons.mp ht0 with rfl | ht0'
            · have := h t0 (by simp)
              omega
            · have := h t0 (List.mem_cons_of_mem _ (List.mem_cons_of_mem _ ht0'))
              omega
          rw [List.find?_cons_of_neg _ (by simpa using hbF),
              List.find?_cons_of_neg _ (by simpa using hxF)]
          have hcongr : ∀ s ∈ xs,
              (fun s => decide (∀ t ∈ b :: x :: xs, ldist s.start_line a ≤ ldist t.start_line a)) s =
              (fun s => decide (∀ t ∈ b :: xs, ldist s.start_line a ≤ ldist t.start_line a)) s := by
            intro s _
            simp only [decide_eq_decide]
            constructor
            · intro h t ht
              rcases List.mem_cons.mp ht with rfl | ht'
              · exact h t (by simp)
              · exact h t (List.mem_cons_of_mem _ (List.mem_cons_of_mem _ ht'))
            · intro h t ht
              rcases List.mem_cons.mp ht with rfl | ht'
              · exact h t (by simp)
              · rcases List.mem_cons.mp ht' with rfl | ht''
                · have := h b (by simp)
                  omega
                · exact h t (List.mem_cons_of_mem _ ht'')
          rw [findCongr _ _ _ hcongr]
          have := ih b
          have hbneg : ¬ (∀ t ∈ b :: xs, ldist b.start_line a ≤ ldist t.start_line a) := by
            intro h
            rcases List.mem_cons.mp ht0 with rfl | ht0'
            · omega
            · exact absurd (h t0 (List.mem_cons_of_mem _ ht0')) (by omega)
          rw [List.find?_cons_of_neg _ (by simpa using hbneg)] at this
          rw [this, List.foldl_cons, if_neg hx]

theorem fbm_eq_described (spans : List FunctionSpan) (name : String) (approx : Nat) :
    find_best_match spans name approx = find_best_match_described spans name approx := by
  unfold find_best_match find_best_match_described
  rw [filterName_eq]
  cases h : spans.filter (fun s => decide (s.name = name)) with
  | nil => rfl
  | cons s rest =>
      cases rest with
      | nil => rfl
      | cons s2 rest2 =>
          simp only [List.length_cons, Nat.succ_ne_zero, if_false,
            Nat.succ.injEq, Nat.succ_ne_zero, and_false]
          rw [findExact_eq, findTol_eq]
          cases hE : List.find? (fun t => decide (t.start_line = approx)) (s :: s2 :: rest2) with
          | some t => rfl
          | none =>
              cases hT : List.find? (fun t => decide (ldist t.start_line approx ≤ 15))
                  (s :: s2 :: rest2) with
              | some t => rfl
              | none =>
                  rw [foldlMinFirst]
                  rfl

/-- Example spans from the specification's fuzzy tie-break property. -/
def demoSpans : List FunctionSpan :=
  [⟨"foo", 10, 20⟩, ⟨"foo", 100, 110⟩]

/-- C3 (amended): `find_best_match` returns only spans whose name matches the
request exactly; a unique same-named span is returned unconditionally;
otherwise it prefers an exact start-line match, then the FIRST candidate in
span-list order within the fixed 15-line tolerance window (not the nearest
one), then the first candidate of minimum absolute line distance.  With
spans for "foo" at start lines 10 and 100, a request at line 15 returns the
span at 10 and a request at line 105 returns the span at 100. -/
theorem find_best_match_resolution :
    (∀ spans name approx, find_best_match spans name approx =
        find_best_match_described spans name approx) ∧
    find_best_match demoSpans "foo" 15 = some ⟨"foo", 10, 20⟩ ∧
    find_best_match demoSpans "foo" 105 = some ⟨"foo", 100, 110⟩ :=
  ⟨fbm_eq_described, by decide, by decide⟩

/-- C3 counterexample: with same-named spans at start lines 20 and 12 and a
request at line 11, both candidates lie within the 15-line tolerance window
and the span at 12 is strictly nearer, yet the resolver returns the span at
20 because it comes first in span-list order — refuting the claim that the
nearest candidate within the window is returned. -/
theorem find_best_match_not_nearest :
    find_best_match [⟨"foo", 20, 30⟩, ⟨"foo", 12, 18⟩] "foo" 11 = some ⟨"foo", 20, 30⟩ ∧
    ldist 12 11 ≤ 15 ∧ ldist 20 11 ≤ 15 ∧ ldist 12 11 < ldist 20 11 := by
  refine ⟨by decide, by decide, by decide, by decide⟩

/-- C10: when exactly one span carries the requested name, `find_best_match`
returns it for every requested approximate line; the tolerance window and
distance tie-breaking are reached only with two or more same-named spans. -/
theorem find_best_match_unique_name (spans : List FunctionSpan) (name : String)
    (approx : Nat) (s : FunctionSpan) (h : filterName spans name = [s]) :
    find_best_match spans name approx = some s := by
  unfold find_best_match
  rw [h]
  rfl

/-- Witness for C10: a lone "foo" span at line 10 is returned even for a
request at line 999, far beyond the 15-line tolerance window. -/
theorem find_best_match_unique_name_witness :
    filterName [⟨"foo", 10, 20⟩, ⟨"bar", 1000, 2000⟩] "foo" = [⟨"foo", 10, 20⟩] ∧
    find_best_match [⟨"foo", 10, 20⟩, ⟨"bar", 1000, 2000⟩] "foo" 999 = some ⟨"foo", 10, 20⟩ :=
  ⟨by decide, find_best_match_unique_name _ _ _ _ (by decide)⟩

/-! ### SCIP index data model (`scip_to_call_graph_json_final.rs:9-89`) -/

structure ToolInfo where
  name : String
  version : String
deriving DecidableEq

structure Metadata where
  tool_info : ToolInfo
  project_root : String
  text_document_encoding : Int
deriving DecidableEq

structure Occurrence where
  range : List Int
  symbol : String
  symbol_roles : Option Int
deriving DecidableEq

structure SignatureDocumentation where
  language : String
  text : String
  position_encoding : Int
deriving DecidableEq

structure Symbol where
  symbol : String
  kind : Int
  display_name : Option String
  documentation : Option (List String)
  signature_documentation : SignatureDocumentation
  enclosing_symbol : Option String
deriving DecidableEq

structure Document where
  language : String
  relative_path : String
  occurrences : List Occurrence
  symbols : List Symbol
  position_encoding : Int
deriving DecidableEq

structure ScipIndex where
  metadata : Metadata
  documents : List Document
deriving DecidableEq

/-- Graph vertex; `callers`/`callees` are Rust `HashSet`s, modelled as
duplicate-free lists used only through membership. -/
structure FunctionNode where
  symbol : String
  display_name : String
  file_path : String
  relative_path : String
  callers : List String
  callees : List String
  range : List Int
  body : Option String
deriving DecidableEq

/-- SCIP kinds treated as callable (`is_function_like`, line 521-524):
Method=6, Function=17, Constructor=26, Macro=80. -/
def is_function_like (kind : Int) : Bool :=
  kind == 6 || kind == 17 || kind == 26 || kind == 80

/-- Definition-role test `occurrence.symbol_roles.unwrap_or(0) & 1 == 1`.
Bit 0 of a two's-complement `i32` is 1 exactly when the integer is odd,
i.e. when its euclidean remainder mod 2 is 1. -/
def isDefOcc (o : Occurrence) : Bool := (o.symbol_roles.getD 0) % 2 == 1

/-! ### Pass 1: the symbol catalog (`build_call_graph` lines 106-124) -/

structure Catalog where
  enclosure : List (String × String)
  displayName : List (String × String)
  funcs : List String
deriving DecidableEq

/-- Pass 1 update for one symbol record: record the enclosure edge, and for
callable kinds the membership and display name ("unknown" when absent). -/
def pass1Symbol (c : Catalog) (s : Symbol) : Catalog :=
  let c1 :=
    match s.enclosing_symbol with
    | some e => { c with enclosure := (s.symbol, e) :: c.enclosure }
    | none => c
  if is_function_like s.kind then
    { c1 with
        funcs := s.symbol :: c1.funcs,
        displayName := (s.symbol, s.display_name.getD "unknown") :: c1.displayName }
  else c1

def pass1 (idx : ScipIndex) : Catalog :=
  idx.documents.foldl (fun c doc => doc.symbols.foldl pass1Symbol c) ⟨[], [], []⟩

/-- The catalog's set of callable symbols (`function_symbols`). -/
def functionSymbols (idx : ScipIndex) : List String := (pass1 idx).funcs

/-! ### The graph and passes 2-4 -/

/-- The call graph `HashMap<String, FunctionNode>`: an association list in
which pass 2 inserts a key at most once, so keys are unique. -/
abbrev Graph := List (String × FunctionNode)

def gget : Graph → String → Option FunctionNode
  | [], _ => none
  | (k, v) :: rest, s => if k = s then some v else gget rest s

/-- In-place update of the node stored under a key (`get_mut`); a no-op for
absent keys. -/
def gmodify (g : Graph) (s : String) (f : FunctionNode → FunctionNode) : Graph :=
  g.map (fun p => if p.1 = s then (p.1, f p.2) else p)

/-- `trim_start_matches('/')`: drop every leading slash. -/
def trimLeadingSlashes (s : String) : String := ⟨s.data.dropWhile (fun c => c == '/')⟩

/-- Pass 2 for one occurrence (`build_call_graph` lines 133-157): create a
node for a Definition occurrence of a callable symbol, using the current
document's path and this occurrence's range, unless the node exists
(`entry().or_insert_with`). -/
def pass2Step (c : Catalog) (abs rel : String) (g : Graph) (occ : Occurrence) : Graph :=
  if isDefOcc occ ∧ occ.symbol ∈ c.funcs then
    match gget g occ.symbol with
    | some _ => g
    | none =>
        (occ.symbol,
          { symbol := occ.symbol
            display_name := (alookup c.displayName occ.symbol).getD "unknown"
            file_path := abs
            relative_path := rel
            callers := []
            callees := []
            range := occ.range
            body := none }) :: g
  else g

/-- Pass 2 for one document (`build_call_graph` lines 126-159). -/
def pass2Doc (root : String) (c : Catalog) (g : Graph) (doc : Document) : Graph :=
  let rel := trimLeadingSlashes doc.relative_path
  let abs := root ++ "/" ++ rel
  doc.occurrences.foldl (pass2Step c abs rel) g

/-- Insertion into a `HashSet<String>`. -/
def setInsert (l : List String) (x : String) : List String :=
  if x ∈ l then l else x :: l

/-- Record a caller→callee edge on whichever of the two nodes exist
(`build_call_graph` lines 176-183). -/
def addEdge (g : Graph) (caller callee : String) : Graph :=
  let g1 := gmodify g caller (fun n => { n with callees := setInsert n.callees callee })
  gmodify g1 callee (fun n => { n with callers := setInsert n.callers caller })

/-- The enclosure walk of pass 3 (`build_call_graph` lines 171-187), with
explicit fuel standing in for the Rust `while let` loop.  `some none` means
the chain ended without a callable ancestor (no edge), `some (some f)` that
`f` is the nearest callable ancestor, and `none` that the fuel ran out —
which, on an acyclic (forest) enclosure relation, cannot happen with the
fuel `build_call_graph` supplies (`walk_terminates_no_revisit` below). -/
def walkEnclosure (encl : List (String × String)) (funcs : List String) :
    Nat → String → Option (Option String)
  | 0, _ => none
  | fuel + 1, cur =>
    match alookup encl cur with
    | none => some none
    | some enc => if enc ∈ funcs then some (some enc) else walkEnclosure encl funcs fuel enc

/-- The symbols whose enclosing symbol the pass-3 walk looks up, in order:
the walk's visited ancestors (starting at the occurrence's own symbol). -/
def walkChain (encl : List (String × String)) (funcs : List String) :
    Nat → String → List String
  | 0, cur => [cur]
  | fuel + 1, cur =>
    cur ::
      match alookup encl cur with
      | none => []
      | some enc => if enc ∈ funcs then [] else walkChain encl funcs fuel enc

/-- Pass 3 for one occurrence (`build_call_graph` lines 163-190): on a
non-Definition occurrence of a callable symbol, resolve the nearest
callable ancestor and record the edge unless it would be a self-edge. -/
def pass3Occ (encl : List (String × String)) (funcs : List String)
    (g : Graph) (occ : Occurrence) : Graph :=
  if isDefOcc occ = false ∧ occ.symbol ∈ funcs then
    match walkEnclosure encl funcs (encl.length + 1) occ.symbol with
    | some (some caller) => if caller ≠ occ.symbol then addEdge g caller occ.symbol else g
    | _ => g
  else g

/-! ### Pass 4: heuristic body extraction (`build_call_graph` lines 192-242) -/

def lbrace : Char := Char.ofNat 123

def rbrace : Char := Char.ofNat 125

def countChar (s : String) (c : Char) : Nat := s.toList.count c

def hasChar (s : String) (c : Char) : Bool := s.toList.contains c

/-- Substring test on UTF-8 text, used for `line.contains("fn ")`. -/
def hasSubstr (pat : List Char) : List Char → Bool
  | [] => pat.isEmpty
  | c :: rest => pat.isPrefixOf (c :: rest) || hasSubstr pat rest

def lineHasFnKeyword (l : String) : Bool :=
  hasSubstr "fn ".toList l.toList || hasSubstr "const fn ".toList l.toList

/-- The backward scan for the real signature start (`build_call_graph`
lines 211-218): the largest index `i ≤ start` whose line contains "fn "
(or "const fn "), defaulting to `start` itself. -/
def findFnStartAux (lines : List String) (dflt : Nat) : Nat → Nat
  | 0 => if lineHasFnKeyword (lines.getD 0 "") then 0 else dflt
  | i + 1 =>
    if lineHasFnKeyword (lines.getD (i + 1) "") then i + 1 else findFnStartAux lines dflt i

/-- The forward brace-counting scan (`build_call_graph` lines 220-235):
push every line; once some pushed line has contained an opening brace,
track the brace depth (with saturating subtraction) and stop as soon as it
returns to zero. -/
def bodyScan : List String → Nat → Bool → List String
  | [], _, _ => []
  | l :: rest, opn, found =>
    let found2 := found || hasChar l lbrace
    if found2 then
      let opn2 := opn + countChar l lbrace - countChar l rbrace
      if opn2 = 0 then [l] else l :: bodyScan rest opn2 true
    else l :: bodyScan rest 0 false

/-- `body_lines.join("\n")`. -/
def joinLines : List String → String
  | [] => ""
  | [l] => l
  | l :: rest => l ++ "\n" ++ joinLines rest

/-- Body extraction for one node given the file's lines (`build_call_graph`
lines 204-237); `none` when the reported start line is out of range, in
which case the node's body is left untouched. -/
def extract_body (lines : List String) (startLine : Nat) : Option String :=
  if startLine < lines.length then
    let a := findFnStartAux lines startLine startLine
    some (joinLines (bodyScan (lines.drop a) 0 false))
  else none

/-- Split a character list at newline characters (every piece but the last
was newline-terminated). -/
def splitNLAux : List Char → List Char → List (List Char)
  | [], acc => [acc.reverse]
  | c :: rest, acc =>
      if c == '\n' then acc.reverse :: splitNLAux rest []
      else splitNLAux rest (c :: acc)

/-- Strip one trailing carriage return, as Rust's `str::lines` does for
newline-terminated lines. -/
def stripCR (l : List Char) : List Char :=
  if l.getLast? == some '\r' then l.dropLast else l

/-- Rust's `contents.lines()`: split on newlines, strip a carriage return
preceding each newline, and drop the empty piece after a trailing
newline (a bare final carriage return is kept, as in Rust). -/
def rustLines (s : String) : List String :=
  let parts := splitNLAux s.data []
  let front := parts.dropLast.map stripCR
  (match parts.getLast? with
    | some last => if last.isEmpty then front else front ++ [last]
    | none => front).map (fun l => ⟨l⟩)

/-- Repeatedly strip a leading "file://" scheme, as the guarded
`trim_start_matches("file://")` at lines 196-200 does. -/
def dropFileScheme (l : List Char) : List Char :=
  if h : ("file://".toList).isPrefixOf l then
    dropFileScheme (l.drop 7)
  else l
termination_by l.length
decreasing_by
  have hp := (List.isPrefixOf_iff_prefix.mp h).length_le
  have h7 : ("file://".toList).length = 7 := rfl
  simp only [List.length_drop]
  omega

def dropFileSchemeStr (s : String) : String := ⟨dropFileScheme s.toList⟩

/-- Rust's `x as usize` for an `i32` value on a 64-bit target: sign-extend
and reinterpret, i.e. reduce modulo 2^64. -/
def usizeOfI32 (x : Int) : Nat := (x % (2 ^ 64 : Int)).toNat

/-- The body produced for one node by pass 4 (`build_call_graph` lines
194-242), given the file system as a partial map from path to contents;
a failed read or an out-of-range start line leaves the body unchanged. -/
def pass4Body (fs : String → Option String) (n : FunctionNode) : Option String :=
  if n.range ≠ [] then
    match fs (dropFileSchemeStr n.file_path) with
    | some contents =>
      match extract_body (rustLines contents) (usizeOfI32 (n.range.headD 0)) with
      | some b => some b
      | none => n.body
    | none => n.body
  else n.body

def pass4Node (fs : String → Option String) (n : FunctionNode) : FunctionNode :=
  { n with body := pass4Body fs n }

def pass4 (fs : String → Option String) (g : Graph) : Graph :=
  g.map (fun p => (p.1, pass4Node fs p.2))

/-- The graph after pass 2, seeded strictly from Definition occurrences. -/
def passTwo (idx : ScipIndex) : Graph :=
  idx.documents.foldl (pass2Doc idx.metadata.project_root (pass1 idx)) []

/-- The graph after pass 3 (edge resolution over the whole index). -/
def passThree (idx : ScipIndex) : Graph :=
  idx.documents.foldl
    (fun g doc => doc.occurrences.foldl (pass3Occ (pass1 idx).enclosure (pass1 idx).funcs) g)
    (passTwo idx)

/-- The four-pass graph builder `build_call_graph`
(`scip_to_call_graph_json_final.rs:100-244`), parametrised by the file
system read in pass 4. -/
def build_call_graph (fs : String → Option String) (idx : ScipIndex) : Graph :=
  pass4 fs (passThree idx)

/-! ### Graph lemmas -/

theorem gget_cons (k : String) (v : FunctionNode) (rest : Graph) (t : String) :
    gget ((k, v) :: rest) t = if k = t then some v else gget rest t := rfl

theorem gmodify_cons (k : String) (v : FunctionNode) (rest : Graph) (s : String)
    (f : FunctionNode → FunctionNode) :
    gmodify ((k, v) :: rest) s f =
      (if k = s then (k, f v) else (k, v)) :: gmodify rest s f := rfl

theorem gget_gmodify (g : Graph) (s : String) (f : FunctionNode → FunctionNode) (t : String) :
    gget (gmodify g s f) t = if t = s then (gget g t).map f else gget g t := by
  induction g with
  | nil =>
      simp only [gmodify, List.map_nil, gget]
      split <;> rfl
  | cons p rest ih =>
      obtain ⟨k, v⟩ := p
      rw [gmodify_cons]
      by_cases hks : k = s
      · subst hks
        rw [if_pos rfl]
        by_cases hkt : k = t
        · subst hkt
          simp [gget_cons]
        · have htk : ¬ t = k := fun hh => hkt hh.symm
          simp [gget_cons, hkt, htk, ih]
      · rw [if_neg hks]
        by_cases hkt : k = t
        · subst hkt
          have hts : ¬ k = s := hks
          simp [gget_cons, hts]
        · have htk : ¬ t = k := fun hh => hkt hh.symm
          simp [gget_cons, hkt, htk, ih]

theorem pass4_cons (fs : String → Option String) (k : String) (v : FunctionNode)
    (rest : Graph) :
    pass4 fs ((k, v) :: rest) = (k, pass4Node fs v) :: pass4 fs rest := rfl

theorem gget_pass4 (fs : String → Option String) (g : Graph) (t : String) :
    gget (pass4 fs g) t = (gget g t).map (pass4Node fs) := by
  induction g with
  | nil => rfl
  | cons p rest ih =>
      obtain ⟨k, v⟩ := p
      rw [pass4_cons, gget_cons, gget_cons]
      by_cases hkt : k = t
      · simp [hkt]
      · simp [hkt, ih]

theorem mem_setInsert (l : List String) (x y : String) :
    y ∈ setInsert l x ↔ y = x ∨ y ∈ l := by
  unfold setInsert
  split
  · rename_i hx
    constructor
    · exact Or.inr
    · rintro (rfl | hy)
      · exact hx
      · exact hy
  · exact List.mem_cons

/-- Characterisation of a node after `addEdge`: only the caller's callee
set and the callee's caller set change. -/
theorem gget_addEdge (g : Graph) (a b X : String) (nx : FunctionNode)
    (h : gget (addEdge g a b) X = some nx) :
    ∃ nx0, gget g X = some nx0 ∧
      nx.callees = (if X = a then setInsert nx0.callees b else nx0.callees) ∧
      nx.callers = (if X = b then setInsert nx0.callers a else nx0.callers) ∧
      nx.symbol = nx0.symbol := by
  unfold addEdge at h
  rw [gget_gmodify, gget_gmodify] at h
  cases hg : gget g X with
  | none =>
      rw [hg] at h
      by_cases hXb : X = b <;> by_cases hXa : X = a <;> simp [hXa, hXb] at h
  | some n0 =>
      rw [hg] at h
      refine ⟨n0, rfl, ?_⟩
      by_cases hXb : X = b <;> by_cases hXa : X = a
      · rw [if_pos hXb, if_pos hXa] at h
        simp only [Option.map_some', Option.some.injEq] at h
        rw [← h, if_pos hXa, if_pos hXb]
        exact ⟨rfl, rfl, rfl⟩
      · rw [if_pos hXb, if_neg hXa] at h
        simp only [Option.map_some', Option.some.injEq] at h
        rw [← h, if_neg hXa, if_pos hXb]
        exact ⟨rfl, rfl, rfl⟩
      · rw [if_neg hXb, if_pos hXa] at h
        simp only [Option.map_some', Option.some.injEq] at h
        rw [← h, if_pos hXa, if_neg hXb]
        exact ⟨rfl, rfl, rfl⟩
      · rw [if_neg hXb, if_neg hXa] at h
        simp only [Option.map_some', Option.some.injEq] at h
        rw [← h, if_neg hXa, if_neg hXb]
        exact ⟨rfl, rfl, rfl⟩

/-- Caller/callee symmetry of a graph. -/
def SymEdges (g : Graph) : Prop :=
  ∀ A B na nb, gget g A = some na → gget g B = some nb →
    (B ∈ na.callees ↔ A ∈ nb.callers)

/-- Absence of self-edges. -/
def NoSelfEdge (g : Graph) : Prop :=
  ∀ A na, gget g A = some na → A ∉ na.callees ∧ A ∉ na.callers

/-- All caller/callee sets empty (the state pass 2 leaves behind). -/
def FreshSets (g : Graph) : Prop :=
  ∀ A na, gget g A = some na → na.callees = [] ∧ na.callers = []

theorem freshSets_symEdges {g : Graph} (h : FreshSets g) : SymEdges g := by
  intro A B na nb hA hB
  rw [(h A na hA).1, (h B nb hB).2]
  simp

theorem freshSets_noSelfEdge {g : Graph} (h : FreshSets g) : NoSelfEdge g := by
  intro A na hA
  rw [(h A na hA).1, (h A na hA).2]
  simp

theorem symEdges_addEdge {g : Graph} (a b : String) (h : SymEdges g) :
    SymEdges (addEdge g a b) := by
  intro A B na nb hA hB
  obtain ⟨na0, hA0, hace, hacr, -⟩ := gget_addEdge g a b A na hA
  obtain ⟨nb0, hB0, hbce, hbcr, -⟩ := gget_addEdge g a b B nb hB
  have base := h A B na0 nb0 hA0 hB0
  rw [hace, hbcr]
  by_cases hAa : A = a <;> by_cases hBb : B = b
  · subst hAa; subst hBb
    rw [if_pos rfl, if_pos rfl, mem_setInsert, mem_setInsert]
    simp
  · subst hAa
    rw [if_pos rfl, if_neg hBb, mem_setInsert]
    constructor
    · rintro (rfl | hmem)
      · exact absurd rfl hBb
      · exact base.mp hmem
    · intro hmem
      exact Or.inr (base.mpr hmem)
  · subst hBb
    rw [if_neg hAa, if_pos rfl, mem_setInsert]
    constructor
    · intro hmem
      exact Or.inr (base.mp hmem)
    · rintro (rfl | hmem)
      · exact absurd rfl hAa
      · exact base.mpr hmem
  · rw [if_neg hAa, if_neg hBb]
    exact base

theorem noSelfEdge_addEdge {g : Graph} (a b : String) (hne : a ≠ b)
    (h : NoSelfEdge g) : NoSelfEdge (addEdge g a b) := by
  intro A na hA
  obtain ⟨na0, hA0, hace, hacr, -⟩ := gget_addEdge g a b A na hA
  have base := h A na0 hA0
  rw [hace, hacr]
  constructor
  · by_cases hAa : A = a
    · subst hAa
      rw [if_pos rfl, mem_setInsert]
      rintro (rfl | hmem)
      · exact hne rfl
      · exact base.1 hmem
    · rw [if_neg hAa]
      exact base.1
  · by_cases hAb : A = b
    · subst hAb
      rw [if_pos rfl, mem_setInsert]
      rintro (rfl | hmem)
      · exact hne rfl
      · exact base.2 hmem
    · rw [if_neg hAb]
      exact base.2

theorem symEdges_pass3Occ {g : Graph} (encl : List (String × String))
    (funcs : List String) (occ : Occurrence) (h : SymEdges g) :
    SymEdges (pass3Occ encl funcs g occ) := by
  unfold pass3Occ
  split
  · cases hw : walkEnclosure encl funcs (encl.length + 1) occ.symbol with
    | none => exact h
    | some r =>
        cases r with
        | none => exact h
        | some caller =>
            show SymEdges (if caller ≠ occ.symbol then addEdge g caller occ.symbol else g)
            by_cases hne : caller ≠ occ.symbol
            · rw [if_pos hne]
              exact symEdges_addEdge caller occ.symbol h
            · rw [if_neg hne]
              exact h
  · exact h

theorem noSelfEdge_pass3Occ {g : Graph} (encl : List (String × String))
    (funcs : List String) (occ : Occurrence) (h : NoSelfEdge g) :
    NoSelfEdge (pass3Occ encl funcs g occ) := by
  unfold pass3Occ
  split
  · cases hw : walkEnclosure encl funcs (encl.length + 1) occ.symbol with
    | none => exact h
    | some r =>
        cases r with
        | none => exact h
        | some caller =>
            show NoSelfEdge (if caller ≠ occ.symbol then addEdge g caller occ.symbol else g)
            by_cases hne : caller ≠ occ.symbol
            · rw [if_pos hne]
              exact noSelfEdge_addEdge caller occ.symbol hne h
            · rw [if_neg hne]
              exact h
  · exact h

theorem symEdges_pass3occs (encl : List (String × String)) (funcs : List String) :
    ∀ (occs : List Occurrence) (g : Graph), SymEdges g →
      SymEdges (occs.foldl (pass3Occ encl funcs) g) := by
  intro occs
  induction occs with
  | nil => intro g h; exact h
  | cons o os ih =>
      intro g h
      exact ih _ (symEdges_pass3Occ encl funcs o h)

theorem noSelfEdge_pass3occs (encl : List (String × String)) (funcs : List String) :
    ∀ (occs : List Occurrence) (g : Graph), NoSelfEdge g →
      NoSelfEdge (occs.foldl (pass3Occ encl funcs) g) := by
  intro occs
  induction occs with
  | nil => intro g h; exact h
  | cons o os ih =>
      intro g h
      exact ih _ (noSelfEdge_pass3Occ encl funcs o h)

theorem symEdges_pass3docs (encl : List (String × String)) (funcs : List String) :
    ∀ (docs : List Document) (g : Graph), SymEdges g →
      SymEdges (docs.foldl
        (fun g doc => doc.occurrences.foldl (pass3Occ encl funcs) g) g) := by
  intro docs
  induction docs with
  | nil => intro g h; exact h
  | cons d ds ih =>
      intro g h
      exact ih _ (symEdges_pass3occs encl funcs d.occurrences g h)

theorem noSelfEdge_pass3docs (encl : List (String × String)) (funcs : List String) :
    ∀ (docs : List Document) (g : Graph), NoSelfEdge g →
      NoSelfEdge (docs.foldl
        (fun g doc => doc.occurrences.foldl (pass3Occ encl funcs) g) g) := by
  intro docs
  induction docs with
  | nil => intro g h; exact h
  | cons d ds ih =>
      intro g h
      exact ih _ (noSelfEdge_pass3occs encl funcs d.occurrences g h)

theorem pass4Node_callees (fs : String → Option String) (n : FunctionNode) :
    (pass4Node fs n).callees = n.callees := rfl

theorem pass4Node_callers (fs : String → Option String) (n : FunctionNode) :
    (pass4Node fs n).callers = n.callers := rfl

theorem symEdges_pass4 (fs : String → Option String) {g : Graph} (h : SymEdges g) :
    SymEdges (pass4 fs g) := by
  intro A B na nb hA hB
  rw [gget_pass4] at hA hB
  cases hga : gget g A with
  | none => rw [hga] at hA; exact absurd hA (by simp)
  | some na0 =>
      cases hgb : gget g B with
      | none => rw [hgb] at hB; exact absurd hB (by simp)
      | some nb0 =>
          rw [hga] at hA
          rw [hgb] at hB
          simp only [Option.map_some', Option.some.injEq] at hA hB
          rw [← hA, ← hB, pass4Node_callees, pass4Node_callers]
          exact h A B na0 nb0 hga hgb

theorem noSelfEdge_pass4 (fs : String → Option String) {g : Graph} (h : NoSelfEdge g) :
    NoSelfEdge (pass4 fs g) := by
  intro A na hA
  rw [gget_pass4] at hA
  cases hga : gget g A with
  | none => rw [hga] at hA; exact absurd hA (by simp)
  | some na0 =>
      rw [hga] at hA
      simp only [Option.map_some', Option.some.injEq] at hA
      rw [← hA, pass4Node_callees, pass4Node_callers]
      exact h A na0 hga

theorem freshSets_pass2Step (c : Catalog) (abs rel : String) {g : Graph}
    (occ : Occurrence) (h : FreshSets g) : FreshSets (pass2Step c abs rel g occ) := by
  unfold pass2Step
  split
  · cases hg : gget g occ.symbol with
    | some _ => exact h
    | none =>
        intro A na hA
        rw [gget_cons] at hA
        by_cases hs : occ.symbol = A
        · rw [if_pos hs] at hA
          cases hA
          exact ⟨rfl, rfl⟩
        · rw [if_neg hs] at hA
          exact h A na hA
  · exact h

theorem freshSets_pass2occs (c : Catalog) (abs rel : String) :
    ∀ (occs : List Occurrence) (g : Graph), FreshSets g →
      FreshSets (occs.foldl (pass2Step c abs rel) g) := by
  intro occs
  induction occs with
  | nil => intro g h; exact h
  | cons o os ih =>
      intro g h
      exact ih _ (freshSets_pass2Step c abs rel o h)

theorem freshSets_pass2docs (root : String) (c : Catalog) :
    ∀ (docs : List Document) (g : Graph), FreshSets g →
      FreshSets (docs.foldl (pass2Doc root c) g) := by
  intro docs
  induction docs with
  | nil => intro g h; exact h
  | cons d ds ih =>
      intro g h
      exact ih _ (freshSets_pass2occs c _ _ d.occurrences g h)

theorem freshSets_passTwo (idx : ScipIndex) : FreshSets (passTwo idx) :=
  freshSets_pass2docs _ _ idx.documents [] (fun A na hA => by cases hA)

theorem symEdges_passThree (idx : ScipIndex) : SymEdges (passThree idx) :=
  symEdges_pass3docs _ _ idx.documents (passTwo idx)
    (freshSets_symEdges (freshSets_passTwo idx))

theorem noSelfEdge_passThree (idx : ScipIndex) : NoSelfEdge (passThree idx) :=
  noSelfEdge_pass3docs _ _ idx.documents (passTwo idx)
    (freshSets_noSelfEdge (freshSets_passTwo idx))

/-- C2: in every graph built by `build_call_graph`, for any two nodes A and
B present, B's symbol lies in A's callee set exactly when A's symbol lies
in B's caller set. -/
theorem build_symmetry (fs : String → Option String) (idx : ScipIndex)
    (A B : String) (na nb : FunctionNode)
    (hA : gget (build_call_graph fs idx) A = some na)
    (hB : gget (build_call_graph fs idx) B = some nb) :
    B ∈ na.callees ↔ A ∈ nb.callers :=
  symEdges_pass4 fs (symEdges_passThree idx) A B na nb hA hB

/-- C9: no node of a graph built by `build_call_graph` lists its own symbol
among its callees or its callers. -/
theorem build_no_self_edges (fs : String → Option String) (idx : ScipIndex)
    (A : String) (na : FunctionNode)
    (hA : gget (build_call_graph fs idx) A = some na) :
    A ∉ na.callees ∧ A ∉ na.callers :=
  noSelfEdge_pass4 fs (noSelfEdge_passThree idx) A na hA

/-! ### Attribution (C1): where a node's path fields come from -/

/-- The node fields fixed at creation in pass 2 and never modified by the
edge-resolution or body-extraction passes. -/
def coreOf (n : FunctionNode) : String × String × String × String × List Int :=
  (n.symbol, n.display_name, n.file_path, n.relative_path, n.range)

theorem core_gget_addEdge (g : Graph) (a b t : String) :
    (gget (addEdge g a b) t).map coreOf = (gget g t).map coreOf := by
  unfold addEdge
  simp only [gget_gmodify]
  cases hg : gget g t with
  | none =>
      by_cases h1 : t = b <;> by_cases h2 : t = a <;> simp [h1, h2]
  | some n0 =>
      by_cases h1 : t = b <;> by_cases h2 : t = a
      · have hba : b = a := h1.symm.trans h2
        simp [h1, h2, hba, coreOf]
      · have hba : ¬ b = a := fun hh => h2 (h1.trans hh)
        simp [h1, h2, hba, coreOf]
      · have hab : ¬ a = b := fun hh => h1 (h2.trans hh)
        simp [h1, h2, hab, coreOf]
      · simp [h1, h2, coreOf]

theorem core_gget_pass3Occ (encl : List (String × String)) (funcs : List String)
    (g : Graph) (occ : Occurrence) (t : String) :
    (gget (pass3Occ encl funcs g occ) t).map coreOf = (gget g t).map coreOf := by
  unfold pass3Occ
  split
  · cases hw : walkEnclosure encl funcs (encl.length + 1) occ.symbol with
    | none => rfl
    | some r =>
        cases r with
        | none => rfl
        | some caller =>
            show (gget (if caller ≠ occ.symbol then addEdge g caller occ.symbol else g) t).map coreOf = _
            by_cases hne : caller ≠ occ.symbol
            · rw [if_pos hne]
              exact core_gget_addEdge g caller occ.symbol t
            · rw [if_neg hne]
  · rfl

theorem core_gget_pass3occs (encl : List (String × String)) (funcs : List String)
    (t : String) :
    ∀ (occs : List Occurrence) (g : Graph),
      (gget (occs.foldl (pass3Occ encl funcs) g) t).map coreOf = (gget g t).map coreOf := by
  intro occs
  induction occs with
  | nil => intro g; rfl
  | cons o os ih =>
      intro g
      rw [List.foldl_cons, ih, core_gget_pass3Occ]

theorem core_gget_pass3docs (encl : List (String × String)) (funcs : List String)
    (t : String) :
    ∀ (docs : List Document) (g : Graph),
      (gget (docs.foldl
          (fun g doc => doc.occurrences.foldl (pass3Occ encl funcs) g) g) t).map coreOf
        = (gget g t).map coreOf := by
  intro docs
  induction docs with
  | nil => intro g; rfl
  | cons d ds ih =>
      intro g
      rw [List.foldl_cons, ih, core_gget_pass3occs]

/-- Where a node can come from in pass 2: some document of the index that
holds a Definition occurrence of the symbol, whose (slash-trimmed) relative
path and root-joined absolute path are recorded in the node. -/
def NodeFromDef (root : String) (docs : List Document) (S : String) (n : FunctionNode) : Prop :=
  ∃ doc, doc ∈ docs ∧ (∃ o, o ∈ doc.occurrences ∧ o.symbol = S ∧ isDefOcc o = true) ∧
    n.relative_path = trimLeadingSlashes doc.relative_path ∧
    n.file_path = root ++ "/" ++ trimLeadingSlashes doc.relative_path

theorem pass2Step_origin (root : String) (docs : List Document) (c : Catalog)
    (doc : Document) (hdoc : doc ∈ docs) (g : Graph) (occ : Occurrence)
    (hocc : occ ∈ doc.occurrences)
    (hg : ∀ S n, gget g S = some n → NodeFromDef root docs S n) :
    ∀ S n, gget (pass2Step c
        (root ++ "/" ++ trimLeadingSlashes doc.relative_path)
        (trimLeadingSlashes doc.relative_path) g occ) S = some n →
      NodeFromDef root docs S n := by
  intro S n hget
  unfold pass2Step at hget
  by_cases hcond : isDefOcc occ ∧ occ.symbol ∈ c.funcs
  · rw [if_pos hcond] at hget
    cases hpre : gget g occ.symbol with
    | some _ =>
        rw [hpre] at hget
        exact hg S n hget
    | none =>
        rw [hpre] at hget
        rw [gget_cons] at hget
        by_cases hs : occ.symbol = S
        · rw [if_pos hs] at hget
          cases hget
          exact ⟨doc, hdoc, ⟨occ, hocc, hs, hcond.1⟩, rfl, rfl⟩
        · rw [if_neg hs] at hget
          exact hg S n hget
  · rw [if_neg hcond] at hget
    exact hg S n hget

theorem pass2Doc_origin (root : String) (docs : List Document) (c : Catalog)
    (doc : Document) (hdoc : doc ∈ docs) (g : Graph)
    (hg : ∀ S n, gget g S = some n → NodeFromDef root docs S n) :
    ∀ S n, gget (pass2Doc root c g doc) S = some n → NodeFromDef root docs S n := by
  unfold pass2Doc
  refine foldlPreserve
    (P := fun g => ∀ S n, gget g S = some n → NodeFromDef root docs S n)
    _ doc.occurrences g hg ?_
  intro b occ hocc hb
  exact pass2Step_origin root docs c doc hdoc b occ hocc hb

theorem pass2docs_origin (root : String) (c : Catalog) (docs0 : List Document) :
    ∀ (docs : List Document), (∀ d, d ∈ docs → d ∈ docs0) →
      ∀ (g : Graph), (∀ S n, gget g S = some n → NodeFromDef root docs0 S n) →
      ∀ S n, gget (docs.foldl (pass2Doc root c) g) S = some n →
        NodeFromDef root docs0 S n := by
  intro docs
  induction docs with
  | nil => intro _ g hg; exact hg
  | cons d ds ih =>
      intro hsub g hg
      rw [List.foldl_cons]
      exact ih (fun x hx => hsub x (List.mem_cons_of_mem _ hx)) _
        (pass2Doc_origin root docs0 c d (hsub d (List.mem_cons_self d ds)) g hg)

theorem passTwo_origin (idx : ScipIndex) :
    ∀ S n, gget (passTwo idx) S = some n →
      NodeFromDef idx.metadata.project_root idx.documents S n :=
  pass2docs_origin _ _ idx.documents idx.documents (fun _ h => h) []
    (fun S n h => by cases h)

/-! Presence: a Definition occurrence of a callable symbol guarantees a
node, and presence is monotone along every later step. -/

theorem isSome_gget_cons (k : String) (v : FunctionNode) (rest : Graph) (t : String)
    (h : (gget rest t).isSome) : (gget ((k, v) :: rest) t).isSome := by
  rw [gget_cons]
  by_cases hkt : k = t
  · rw [if_pos hkt]; rfl
  · rw [if_neg hkt]; exact h

theorem isSome_pass2Step (c : Catalog) (abs rel : String) (g : Graph)
    (occ : Occurrence) (t : String) (h : (gget g t).isSome) :
    (gget (pass2Step c abs rel g occ) t).isSome := by
  unfold pass2Step
  split
  · cases hg : gget g occ.symbol with
    | some _ => exact h
    | none => exact isSome_gget_cons _ _ _ _ h
  · exact h

theorem isSome_pass2occs (c : Catalog) (abs rel : String) (t : String) :
    ∀ (occs : List Occurrence) (g : Graph), (gget g t).isSome →
      (gget (occs.foldl (pass2Step c abs rel) g) t).isSome := by
  intro occs
  induction occs with
  | nil => intro g h; exact h
  | cons o os ih =>
      intro g h
      exact ih _ (isSome_pass2Step c abs rel g o t h)

theorem isSome_pass2docs (root : String) (c : Catalog) (t : String) :
    ∀ (docs : List Document) (g : Graph), (gget g t).isSome →
      (gget (docs.foldl (pass2Doc root c) g) t).isSome := by
  intro docs
  induction docs with
  | nil => intro g h; exact h
  | cons d ds ih =>
      intro g h
      exact ih _ (isSome_pass2occs c _ _ t d.occurrences g h)

theorem pass2occs_present (c : Catalog) (abs rel : String) :
    ∀ (occs : List Occurrence) (g : Graph) (occ : Occurrence), occ ∈ occs →
      isDefOcc occ = true → occ.symbol ∈ c.funcs →
      (gget (occs.foldl (pass2Step c abs rel) g) occ.symbol).isSome := by
  intro occs
  induction occs with
  | nil => intro g occ h; cases h
  | cons o os ih =>
      intro g occ hmem hdef hfun
      rcases List.mem_cons.mp hmem with rfl | hmem'
      · rw [List.foldl_cons]
        apply isSome_pass2occs
        unfold pass2Step
        rw [if_pos ⟨hdef, hfun⟩]
        cases hg : gget g occ.symbol with
        | some _ => simp [hg]
        | none =>
            rw [gget_cons, if_pos rfl]
            rfl
      · rw [List.foldl_cons]
        exact ih _ occ hmem' hdef hfun

theorem pass2docs_present (root : String) (c : Catalog) :
    ∀ (docs : List Document) (g : Graph) (doc : Document) (occ : Occurrence),
      doc ∈ docs → occ ∈ doc.occurrences → isDefOcc occ = true →
      occ.symbol ∈ c.funcs →
      (gget (docs.foldl (pass2Doc root c) g) occ.symbol).isSome := by
  intro docs
  induction docs with
  | nil => intro g doc occ h; cases h
  | cons d ds ih =>
      intro g doc occ hdoc hocc hdef hfun
      rcases List.mem_cons.mp hdoc with rfl | hdoc'
      · rw [List.foldl_cons]
        apply isSome_pass2docs
        unfold pass2Doc
        exact pass2occs_present c _ _ doc.occurrences g occ hocc hdef hfun
      · rw [List.foldl_cons]
        exact ih _ doc occ hdoc' hocc hdef hfun

theorem isSome_gget_addEdge (g : Graph) (a b t : String) :
    (gget (addEdge g a b) t).isSome = (gget g t).isSome := by
  have h := core_gget_addEdge g a b t
  cases h1 : gget (addEdge g a b) t <;> cases h2 : gget g t <;>
    rw [h1, h2] at h <;> simp at h <;> rfl

theorem isSome_gget_pass3Occ (encl : List (String × String)) (funcs : List String)
    (g : Graph) (occ : Occurrence) (t : String) :
    (gget (pass3Occ encl funcs g occ) t).isSome = (gget g t).isSome := by
  have h := core_gget_pass3Occ encl funcs g occ t
  cases h1 : gget (pass3Occ encl funcs g occ) t <;> cases h2 : gget g t <;>
    rw [h1, h2] at h <;> simp at h <;> rfl

/-- C1: if callable symbol S has its Definition occurrences only in
document D1 (any other document, like D2, holding only non-Definition
occurrences of S), then the node `build_call_graph` creates for S carries
D1's slash-trimmed relative path and the project root joined with it — the
paths of the defining document, never those of a merely referencing one. -/
theorem build_attribution (fs : String → Option String) (idx : ScipIndex)
    (D1 : Document) (S : String)
    (hD1 : D1 ∈ idx.documents)
    (hdef : ∃ o, o ∈ D1.occurrences ∧ o.symbol = S ∧ isDefOcc o = true)
    (hfun : S ∈ functionSymbols idx)
    (huniq : ∀ D, D ∈ idx.documents →
        (∃ o, o ∈ D.occurrences ∧ o.symbol = S ∧ isDefOcc o = true) →
        D.relative_path = D1.relative_path) :
    (gget (build_call_graph fs idx) S).map (fun n => (n.relative_path, n.file_path)) =
      some (trimLeadingSlashes D1.relative_path,
        idx.metadata.project_root ++ "/" ++ trimLeadingSlashes D1.relative_path) := by
  obtain ⟨o, ho, hosym, hodef⟩ := hdef
  have hfun2 : o.symbol ∈ (pass1 idx).funcs := by rw [hosym]; exact hfun
  have hp2 : (gget (passTwo idx) S).isSome := by
    unfold passTwo
    rw [← hosym]
    exact pass2docs_present idx.metadata.project_root (pass1 idx)
      idx.documents [] D1 o hD1 ho hodef hfun2
  obtain ⟨n2, hn2⟩ := Option.isSome_iff_exists.mp hp2
  obtain ⟨doc, hdoc, hdocdef, hrel, hfile⟩ := passTwo_origin idx S n2 hn2
  have hpath : doc.relative_path = D1.relative_path := huniq doc hdoc hdocdef
  have hcore3 : (gget (passThree idx) S).map coreOf = some (coreOf n2) := by
    unfold passThree
    rw [core_gget_pass3docs, hn2]
    rfl
  cases hn3 : gget (passThree idx) S with
  | none => rw [hn3] at hcore3; exact absurd hcore3 (by simp)
  | some n3 =>
      rw [hn3] at hcore3
      simp only [Option.map_some', Option.some.injEq] at hcore3
      have hfields : n3.relative_path = n2.relative_path ∧ n3.file_path = n2.file_path := by
        have h1 := congrArg (fun q => q.2.2.2.1) hcore3
        have h2 := congrArg (fun q => q.2.2.1) hcore3
        exact ⟨h1, h2⟩
      have hbuild : gget (build_call_graph fs idx) S = some (pass4Node fs n3) := by
        unfold build_call_graph
        rw [gget_pass4, hn3]
        rfl
      rw [hbuild]
      simp only [Option.map_some', Option.some.injEq]
      have hp4rel : (pass4Node fs n3).relative_path = n3.relative_path := rfl
      have hp4file : (pass4Node fs n3).file_path = n3.file_path := rfl
      rw [hp4rel, hp4file, hfields.1, hfields.2, hrel, hfile, hpath]

/-! ### Termination of the pass-3 walk (C8) -/

theorem walk_succeeds (encl : List (String × String)) (funcs : List String)
    (rank : String → Nat)
    (hrank : ∀ x y, alookup encl x = some y → rank y < rank x) :
    ∀ (fuel : Nat) (cur : String), rank cur < fuel →
      walkEnclosure encl funcs fuel cur ≠ none := by
  intro fuel
  induction fuel with
  | zero => intro cur h; omega
  | succ f ih =>
      intro cur h
      show (match alookup encl cur with
        | none => some none
        | some enc =>
            if enc ∈ funcs then some (some enc) else walkEnclosure encl funcs f enc) ≠ none
      cases he : alookup encl cur with
      | none => simp
      | some enc =>
          by_cases hf : enc ∈ funcs
          · simp [hf]
          · simp only [if_neg hf]
            exact ih enc (by have := hrank cur enc he; omega)

theorem walkChain_zero (encl : List (String × String)) (funcs : List String)
    (cur : String) : walkChain encl funcs 0 cur = [cur] := rfl

theorem walkChain_succ (encl : List (String × String)) (funcs : List String)
    (f : Nat) (cur : String) :
    walkChain encl funcs (f + 1) cur =
      cur :: (match alookup encl cur with
        | none => []
        | some enc => if enc ∈ funcs then [] else walkChain encl funcs f enc) := rfl

theorem walkChain_nodup (encl : List (String × String)) (funcs : List String)
    (rank : String → Nat)
    (hrank : ∀ x y, alookup encl x = some y → rank y < rank x) :
    ∀ (fuel : Nat) (cur : String),
      (walkChain encl funcs fuel cur).Nodup ∧
        ∀ x ∈ walkChain encl funcs fuel cur, rank x ≤ rank cur := by
  intro fuel
  induction fuel with
  | zero =>
      intro cur
      rw [walkChain_zero]
      refine ⟨List.nodup_singleton cur, ?_⟩
      intro x hx
      rw [List.mem_singleton] at hx
      subst hx
      exact le_refl _
  | succ f ih =>
      intro cur
      rw [walkChain_succ]
      cases he : alookup encl cur with
      | none =>
          refine ⟨List.nodup_singleton cur, ?_⟩
          intro x hx
          rw [List.mem_singleton] at hx
          subst hx
          exact le_refl _
      | some enc =>
          show ((cur :: if enc ∈ funcs then [] else walkChain encl funcs f enc).Nodup ∧
            ∀ x ∈ cur :: (if enc ∈ funcs then [] else walkChain encl funcs f enc),
              rank x ≤ rank cur)
          by_cases hf : enc ∈ funcs
          · rw [if_pos hf]
            refine ⟨List.nodup_singleton cur, ?_⟩
            intro x hx
            rw [List.mem_singleton] at hx
            subst hx
            exact le_refl _
          · rw [if_neg hf]
            obtain ⟨ihn, ihb⟩ := ih enc
            have hlt := hrank cur enc he
            constructor
            · exact List.nodup_cons.mpr
                ⟨fun hmem => absurd (ihb cur hmem) (by omega), ihn⟩
            · intro x hx
              rcases List.mem_cons.mp hx with rfl | hx'
              · exact le_refl _
              · have := ihb x hx'
                omega

/-- C8: when the enclosing-symbol relation is an acyclic forest — witnessed,
as for any finite acyclic parent map, by a rank that strictly decreases
along the relation and is bounded by the number of enclosure entries — the
pass-3 edge-resolution walk of `build_call_graph` terminates with the fuel
the builder supplies: it reaches a callable ancestor or the end of the
chain (then yielding no edge) instead of exhausting its fuel, and the chain
of ancestors it visits contains each symbol at most once. -/
theorem walk_terminates_no_revisit (encl : List (String × String)) (funcs : List String)
    (rank : String → Nat)
    (hrank : ∀ x y, alookup encl x = some y → rank y < rank x)
    (hbound : ∀ x, rank x ≤ encl.length)
    (start : String) :
    walkEnclosure encl funcs (encl.length + 1) start ≠ none ∧
    (walkChain encl funcs (encl.length + 1) start).Nodup :=
  ⟨walk_succeeds encl funcs rank hrank (encl.length + 1) start
      (Nat.lt_succ_of_le (hbound start)),
    (walkChain_nodup encl funcs rank hrank (encl.length + 1) start).1⟩

/-- Witness for C8 on a two-entry chain a → b → c with c callable. -/
theorem walk_terminates_no_revisit_witness :
    walkEnclosure [("a", "b"), ("b", "c")] ["c"] 3 "a" ≠ none ∧
    (walkChain [("a", "b"), ("b", "c")] ["c"] 3 "a").Nodup := by
  have h := walk_terminates_no_revisit [("a", "b"), ("b", "c")] ["c"]
    (fun x => if x = "a" then 2 else if x = "b" then 1 else 0) ?hr ?hb "a"
  · exact h
  case hr =>
    intro x y hxy
    simp only [alookup] at hxy
    by_cases hx1 : "a" = x
    · rw [if_pos hx1] at hxy
      cases hxy
      subst hx1
      decide
    · rw [if_neg hx1] at hxy
      by_cases hx2 : "b" = x
      · rw [if_pos hx2] at hxy
        cases hxy
        subst hx2
        decide
      · rw [if_neg hx2] at hxy
        cases hxy
  case hb =>
    intro x
    by_cases h1 : x = "a"
    · simp [h1]
    · by_cases h2 : x = "b" <;> simp [h1, h2]

/-! ### A concrete index for the witnesses of C1, C2 and C9 -/

def sigDoc : SignatureDocumentation := ⟨"rust", "", 0⟩

/-- Document defining callables `outer` and `inner` (inner enclosed in
outer), with a call-site occurrence of `inner`. -/
def demoDocA : Document :=
  { language := "rust"
    relative_path := "/src/a.rs"
    occurrences :=
      [ ⟨[0, 0, 0, 5], "outer().", some 1⟩
      , ⟨[2, 0, 2, 5], "inner().", some 1⟩
      , ⟨[3, 4, 3, 9], "inner().", some 0⟩ ]
    symbols :=
      [ ⟨"outer().", 17, some "outer", none, sigDoc, none⟩
      , ⟨"inner().", 17, some "inner", none, sigDoc, some "outer()."⟩ ]
    position_encoding := 0 }

/-- Document holding only a non-Definition (call-site) occurrence of
`outer`. -/
def demoDocB : Document :=
  { language := "rust"
    relative_path := "src/b.rs"
    occurrences := [ ⟨[5, 1, 5, 6], "outer().", some 0⟩ ]
    symbols := []
    position_encoding := 0 }

def demoIndex : ScipIndex :=
  { metadata := ⟨⟨"rust-analyzer", "0.1"⟩, "/proj", 0⟩
    documents := [demoDocA, demoDocB] }

def demoOuterNode : FunctionNode :=
  { symbol := "outer()."
    display_name := "outer"
    file_path := "/proj/src/a.rs"
    relative_path := "src/a.rs"
    callers := []
    callees := ["inner()."]
    range := [0, 0, 0, 5]
    body := none }

def demoInnerNode : FunctionNode :=
  { symbol := "inner()."
    display_name := "inner"
    file_path := "/proj/src/a.rs"
    relative_path := "src/a.rs"
    callers := ["outer()."]
    callees := []
    range := [2, 0, 2, 5]
    body := none }

/-- Witness for C1: `outer` is defined in demoDocA and only referenced from
demoDocB, and its node carries demoDocA's paths. -/
theorem build_attribution_witness :
    (gget (build_call_graph (fun _ => none) demoIndex) "outer()."
        ).map (fun n => (n.relative_path, n.file_path)) =
      some (trimLeadingSlashes demoDocA.relative_path,
        demoIndex.metadata.project_root ++ "/" ++ trimLeadingSlashes demoDocA.relative_path) :=
  build_attribution (fun _ => none) demoIndex demoDocA "outer()." (by decide)
    (by decide) (by decide) (by decide)

/-- Witness for C2 on the demo index: outer calls inner, and the two edge
sets agree. -/
theorem build_symmetry_witness :
    gget (build_call_graph (fun _ => none) demoIndex) "outer()." = some demoOuterNode ∧
    gget (build_call_graph (fun _ => none) demoIndex) "inner()." = some demoInnerNode ∧
    ("inner()." ∈ demoOuterNode.callees ↔ "outer()." ∈ demoInnerNode.callers) :=
  ⟨by decide, by decide,
    build_symmetry (fun _ => none) demoIndex "outer()." "inner()."
      demoOuterNode demoInnerNode (by decide) (by decide)⟩

/-- Witness for C9 on the demo index. -/
theorem build_no_self_edges_witness :
    gget (build_call_graph (fun _ => none) demoIndex) "outer()." = some demoOuterNode ∧
    "outer()." ∉ demoOuterNode.callees ∧ "outer()." ∉ demoOuterNode.callers :=
  ⟨by decide,
    build_no_self_edges (fun _ => none) demoIndex "outer()." demoOuterNode (by decide)⟩

/-! ### Identifier normalizer `symbol_to_path`
(`scip_to_call_graph_json_final.rs:392-427`)

The function is modelled on character lists with explicit UTF-8 byte
counting, because the Rust code measures `clean_path.len()` in bytes and
`String::truncate` fails on a byte index that is not a character boundary.
A `none` result models that panic. -/

/-- Rust's `char::is_whitespace` (the Unicode White_Space set). -/
def isRustWhitespace (c : Char) : Bool :=
  c == ' ' || c == Char.ofNat 9 || c == Char.ofNat 10 || c == Char.ofNat 11 ||
  c == Char.ofNat 12 || c == Char.ofNat 13 || c == Char.ofNat 0x85 ||
  c == Char.ofNat 0xA0 || c == Char.ofNat 0x1680 ||
  (0x2000 ≤ c.toNat && c.toNat ≤ 0x200A) ||
  c == Char.ofNat 0x2028 || c == Char.ofNat 0x2029 || c == Char.ofNat 0x202F ||
  c == Char.ofNat 0x205F || c == Char.ofNat 0x3000

/-- First `split_whitespace` token (empty when the iterator is empty). -/
def tokenOf (l : List Char) : List Char :=
  (l.dropWhile isRustWhitespace).takeWhile (fun c => !isRustWhitespace c)

/-- The input remaining after the first `split_whitespace` token. -/
def afterTokenOf (l : List Char) : List Char :=
  (l.dropWhile isRustWhitespace).dropWhile (fun c => !isRustWhitespace c)

/-- `s.find(pat)` plus `get(pos + pat.len() ..)`: the suffix after the
first occurrence of the pattern, if the pattern occurs. -/
def afterFirst (pat : List Char) : List Char → Option (List Char)
  | [] => if pat.isEmpty then some [] else none
  | c :: rest =>
      if pat.isPrefixOf (c :: rest) then some ((c :: rest).drop pat.length)
      else afterFirst pat rest

/-- `str::trim`: Unicode whitespace removed from both ends. -/
def trimWs (l : List Char) : List Char :=
  ((l.dropWhile isRustWhitespace).reverse.dropWhile isRustWhitespace).reverse

/-- Lines 402-406: starting at the first ASCII digit, find the next space
and keep the trimmed suffix after it; with no digit, or no space after the
first digit, the string is unchanged. -/
def dropVersionSegment (s : List Char) : List Char :=
  let t := s.dropWhile (fun c => !c.isDigit)
  if t.isEmpty then s
  else
    let u := t.dropWhile (fun c => !(c == ' '))
    if u.isEmpty then s
    else trimWs (u.drop 1)

/-- `trim_end_matches('.')`. -/
def trimEndDots (l : List Char) : List Char :=
  (l.reverse.dropWhile (fun c => c == '.')).reverse

/-- The single-character replacements of lines 410-413:
hyphen to underscore; each square bracket and the hash sign to a slash. -/
def replaceChars (l : List Char) : List Char :=
  l.map (fun c =>
    if c == '-' then '_'
    else if c == '[' then '/'
    else if c == ']' then '/'
    else if c == '#' then '/'
    else c)

/-- `trim_end_matches('/')` (line 414). -/
def trimEndSlashes (l : List Char) : List Char :=
  (l.reverse.dropWhile (fun c => c == '/')).reverse

/-- Line 415: delete backtick, parentheses and square brackets. -/
def removePunct (l : List Char) : List Char :=
  l.filter (fun c =>
    !(c == Char.ofNat 96 || c == '(' || c == ')' || c == '[' || c == ']'))

/-- `replace("//", "/")`: left-to-right, non-overlapping (line 416). -/
def squashSlashes : List Char → List Char
  | '/' :: '/' :: rest => '/' :: squashSlashes rest
  | c :: rest => c :: squashSlashes rest
  | [] => []

/-- The regex `<[^>]*>` removal of lines 418-419: each match runs from a
less-than sign to the first greater-than sign after it; when no closing
sign follows, no further match exists and the pending text is kept. -/
def stripAngles : List Char → Option (List Char) → List Char
  | [], none => []
  | [], some pend => pend.reverse
  | c :: rest, none =>
      if c == '<' then stripAngles rest (some [c])
      else c :: stripAngles rest none
  | c :: rest, some pend =>
      if c == '>' then stripAngles rest none
      else stripAngles rest (some (c :: pend))

/-- UTF-8 byte length of a character list (Rust's `str::len`). -/
def utf8Len (l : List Char) : Nat := (l.map Char.utf8Size).sum

/-- The characters filling exactly `n` UTF-8 bytes, or `none` when byte `n`
falls inside a character — the case in which `String::truncate` panics. -/
def takeBytes : List Char → Nat → Option (List Char)
  | _, 0 => some []
  | [], _ + 1 => none
  | c :: rest, n + 1 =>
      if c.utf8Size ≤ n + 1 then
        (takeBytes rest (n + 1 - c.utf8Size)).map (fun l => c :: l)
      else none

/-- Lines 423-425: `if clean_path.len() > 128 { clean_path.truncate(128) }`. -/
def truncate128 (cp : List Char) : Option (List Char) :=
  if utf8Len cp > 128 then takeBytes cp 128 else some cp

/-- Translation of `symbol_to_path` (lines 393-427) on character lists;
`none` models the truncation panic. -/
def symbolToPathChars (symbol : List Char) (display_name : List Char) :
    Option (List Char) :=
  let t1 := tokenOf symbol
  let t2 := tokenOf (afterTokenOf symbol)
  let s :=
    if t1 = "rust-analyzer".data ∧ t2 = "cargo".data then
      match afterFirst "cargo ".data symbol with
      | some r => r
      | none => symbol
    else symbol
  let s2 := dropVersionSegment s
  let cp := squashSlashes (removePunct (trimEndSlashes (replaceChars (trimEndDots s2))))
  let cp2 := stripAngles cp none
  let cp3 := if display_name.isSuffixOf cp2 then cp2 else cp2 ++ '/' :: display_name
  truncate128 cp3

/-- `symbol_to_path` on Lean strings; `none` models a panic. -/
def symbol_to_path (symbol display_name : String) : Option String :=
  (symbolToPathChars symbol.data display_name.data).map (fun l => ⟨l⟩)

theorem takeBytes_le :
    ∀ (l : List Char) (n : Nat) (r : List Char), takeBytes l n = some r → utf8Len r ≤ n := by
  intro l
  induction l with
  | nil =>
      intro n r h
      cases n with
      | zero => cases h; exact Nat.le_refl 0
      | succ m => cases h
  | cons c rest ih =>
      intro n r h
      cases n with
      | zero => cases h; exact Nat.le_refl 0
      | succ m =>
          unfold takeBytes at h
          by_cases hsz : c.utf8Size ≤ m + 1
          · rw [if_pos hsz] at h
            cases hr : takeBytes rest (m + 1 - c.utf8Size) with
            | none => rw [hr] at h; cases h
            | some r2 =>
                rw [hr] at h
                cases h
                have := ih (m + 1 - c.utf8Size) r2 hr
                show c.utf8Size + utf8Len r2 ≤ m + 1
                omega
          · rw [if_neg hsz] at h
            cases h

theorem truncate128_le (cp r : List Char) (h : truncate128 cp = some r) :
    utf8Len r ≤ 128 := by
  unfold truncate128 at h
  by_cases hlen : utf8Len cp > 128
  · rw [if_pos hlen] at h
    exact takeBytes_le cp 128 r h
  · rw [if_neg hlen] at h
    cases h
    omega

theorem symbolToPathChars_truncated (a b : List Char) :
    ∃ cp, symbolToPathChars a b = truncate128 cp := ⟨_, rfl⟩

/-- C6: any string `symbol_to_path` returns measures at most 128 UTF-8
byte units. -/
theorem symbol_to_path_len_le (symbol display_name r : String)
    (h : symbol_to_path symbol display_name = some r) :
    utf8Len r.data ≤ 128 := by
  unfold symbol_to_path at h
  obtain ⟨cp, hcp⟩ := symbolToPathChars_truncated symbol.data display_name.data
  rw [hcp] at h
  cases ht : truncate128 cp with
  | none => rw [ht] at h; cases h
  | some l =>
      rw [ht] at h
      cases h
      exact truncate128_le cp l ht

def longSym : String := ⟨List.replicate 200 'a'⟩

/-- Witness for C6: a 200-byte symbol is truncated to exactly 128 units. -/
theorem symbol_to_path_len_le_witness :
    symbol_to_path longSym "a" = some ⟨List.replicate 128 'a'⟩ ∧
    utf8Len (⟨List.replicate 128 'a'⟩ : String).data ≤ 128 :=
  ⟨by decide, symbol_to_path_len_le longSym "a" ⟨List.replicate 128 'a'⟩ (by decide)⟩

def panicSym : String := ⟨List.replicate 127 'a' ++ ['é']⟩

/-- C5: `symbol_to_path` is not total.  On a 129-byte cleaned path whose
128th byte falls inside the two-byte character é, the Rust code reaches
`clean_path.truncate(128)` with a non-boundary index and panics; the model
returns `none` there.  The specification's "Never fails" is the intent and
the unguarded truncation is the slip. -/
theorem symbol_to_path_panics : symbol_to_path panicSym "é" = none := by decide

/-! ### Atom export dependencies (C7)
(`write_call_graph_as_atoms_json`, lines 430-479) -/

/-- The `deps` list built for one node (lines 464-467): look up each callee
in the graph, silently skipping absent ones, and normalize each found
node; `none` models a normalizer panic aborting the export. -/
def atomDeps (g : Graph) (n : FunctionNode) : Option (List String) :=
  (n.callees.filterMap (fun callee => gget g callee)).mapM
    (fun cn => symbol_to_path cn.symbol cn.display_name)

theorem atomDeps_aux (g : Graph) :
    ∀ l : List String,
      (∀ cn ∈ l.filterMap (fun c => gget g c),
        (symbol_to_path cn.symbol cn.display_name).isSome) →
      (l.filterMap (fun callee => gget g callee)).mapM
          (fun cn => symbol_to_path cn.symbol cn.display_name) =
        some (l.filterMap (fun c =>
          (gget g c).bind (fun cn => symbol_to_path cn.symbol cn.display_name))) := by
  intro l
  induction l with
  | nil => intro _; rfl
  | cons c cs ih =>
      intro h
      rw [List.filterMap_cons, List.filterMap_cons]
      cases hc : gget g c with
      | none =>
          simp only [Option.none_bind]
          exact ih (by rw [List.filterMap_cons, hc] at h; exact h)
      | some cn =>
          have hmem : cn ∈ (c :: cs).filterMap (fun c => gget g c) := by
            rw [List.filterMap_cons, hc]
            exact List.mem_cons_self _ _
          obtain ⟨v, hv⟩ := Option.isSome_iff_exists.mp (h cn hmem)
          have hrest := ih (fun cn2 hcn2 => by
            refine h cn2 ?_
            rw [List.filterMap_cons, hc]
            exact List.mem_cons_of_mem _ hcn2)
          rw [List.mapM_cons, hv, hrest]
          simp [hv]

/-- C7 (amended): when every callee that has a node normalizes without
panicking, the exported deps list consists of the normalized identifiers —
in callee order, with duplicates possible when two distinct callees
normalize to the same identifier — of exactly those callees that have
nodes; a callee without a node contributes no entry and causes no
failure. -/
theorem atomDeps_spec (g : Graph) (n : FunctionNode)
    (h : ∀ cn ∈ n.callees.filterMap (fun c => gget g c),
      (symbol_to_path cn.symbol cn.display_name).isSome) :
    atomDeps g n =
      some (n.callees.filterMap (fun c =>
        (gget g c).bind (fun cn => symbol_to_path cn.symbol cn.display_name))) :=
  atomDeps_aux g n.callees h

def depNodeA : FunctionNode :=
  { symbol := "A", display_name := "fa", file_path := "/p/f.rs",
    relative_path := "f.rs", callers := [], callees := ["x-y", "x_y", "ghost"],
    range := [], body := none }

def depNodeB : FunctionNode :=
  { symbol := "x-y", display_name := "q", file_path := "/p/f.rs",
    relative_path := "f.rs", callers := ["A"], callees := [],
    range := [], body := none }

def depNodeC : FunctionNode :=
  { symbol := "x_y", display_name := "q", file_path := "/p/f.rs",
    relative_path := "f.rs", callers := ["A"], callees := [],
    range := [], body := none }

def depGraph : Graph := [("A", depNodeA), ("x-y", depNodeB), ("x_y", depNodeC)]

/-- C7 counterexample: the callees "x-y" and "x_y" are distinct symbols
with nodes, but both normalize to "x_y/q", so the exported deps list holds
a duplicate — it is not a list of distinct identifiers.  The dangling
callee "ghost" is skipped without failing. -/
theorem atomDeps_not_distinct :
    atomDeps depGraph depNodeA = some ["x_y/q", "x_y/q"] ∧
    ¬ (["x_y/q", "x_y/q"] : List String).Nodup :=
  ⟨by decide, by decide⟩

/-- Witness for C7 on the same graph: deps equal the normalizations of
exactly the callees with nodes, dangling "ghost" contributing nothing. -/
theorem atomDeps_spec_witness :
    atomDeps depGraph depNodeA =
      some (depNodeA.callees.filterMap (fun c =>
        (gget depGraph c).bind (fun cn => symbol_to_path cn.symbol cn.display_name))) :=
  atomDeps_spec depGraph depNodeA (by decide)

/-! ### Heuristic body-extraction boundary (C4) -/

/-- C4 counterexample: for a node whose definition is the single-line,
brace-less callable on line 0 of a three-line file, pass 4's scan
accumulates every following line: the extracted body is the whole file,
neither empty nor a single line, and the scan reaches the end of file. -/
theorem extract_body_bracefree_to_eof :
    extract_body ["fn foo();", "junk", "more()"] 0 =
      some "fn foo();\njunk\nmore()" ∧
    (bodyScan ["fn foo();", "junk", "more()"] 0 false).length = 3 ∧
    (["fn foo();", "junk", "more()"] : List String).length = 3 :=
  ⟨by decide, by decide, by decide⟩

theorem bodyScan_no_brace :
    ∀ ls : List String, (∀ l ∈ ls, hasChar l lbrace = false) →
      bodyScan ls 0 false = ls := by
  intro ls
  induction ls with
  | nil => intro _; rfl
  | cons l rest ih =>
      intro h
      have hl := h l (List.mem_cons_self l rest)
      unfold bodyScan
      rw [hl]
      simp only [Bool.or_false, if_neg (by simp : ¬ (false : Bool) = true)]
      rw [ih (fun x hx => h x (List.mem_cons_of_mem _ hx))]

/-- C4 (amended): for a single-line brace-less callable the scan is not
bounded by the callable itself: when no line from the (backward-adjusted)
start onward contains an opening brace, the extracted body is every
remaining line joined, down to the end of the file; the scan stops early
only when some later line opens a brace group that closes. -/
theorem extract_body_no_brace (lines : List String) (start : Nat)
    (hstart : start < lines.length)
    (h : ∀ l ∈ lines.drop (findFnStartAux lines start start), hasChar l lbrace = false) :
    extract_body lines start =
      some (joinLines (lines.drop (findFnStartAux lines start start))) := by
  unfold extract_body
  rw [if_pos hstart]
  show some (joinLines (bodyScan (lines.drop (findFnStartAux lines start start)) 0 false)) = _
  rw [bodyScan_no_brace _ h]

/-- Witness for C4 (amended) on a two-line brace-less file. -/
theorem extract_body_no_brace_witness :
    extract_body ["fn f();", "tail"] 0 =
      some (joinLines (["fn f();", "tail"].drop (findFnStartAux ["fn f();", "tail"] 0 0))) :=
  extract_body_no_brace ["fn f();", "tail"] 0 (by decide) (by decide)

end Atomizer
